import Mathlib

/-!
Verification of the musicality stem-player core: a shallow embedding of the
beat-index search (`useBeatSync.ts`) and of the multi-track stem transport
(`useStemPlayer.ts`), with theorems checking the specified contracts.

Times and durations are modelled as rationals; array indices follow the
JavaScript convention of signed integers with `-1` as the "not found" value.
The `AudioContext` clock is passed to every transport operation as an explicit
`now` argument.
-/

namespace Musicality

/-- A detected beat: `{ time: float seconds, beat_num: int }` (types/job.ts). -/
structure Beat where
  time : ℚ
  beat_num : ℤ
deriving DecidableEq, Inhabited

/-- A bar: `{ start, end, bar_num }` (types/job.ts); the source field `end` is a
Lean keyword and is embedded here as `stop`. -/
structure Bar where
  start : ℚ
  stop : ℚ
  bar_num : ℤ
deriving DecidableEq, Inhabited

/-- The shared loop of `binarySearchFloor` and `binarySearchBarFloor`
(useBeatSync.ts): both source functions are the same algorithm with a
different key (`beat.time` resp. `bar.start`), embedded once with the key as a
parameter.  `lo`, `hi`, `result` are the three mutable locals of the source
loop; the local `mid = (lo + hi) >>> 1` is inlined as `(lo + hi) / 2` (every
reachable state has `0 ≤ lo + hi`, where the unsigned shift is exactly
halving). -/
def floorSearchGo {α : Type} [Inhabited α] (key : α → ℚ) (xs : List α) (t : ℚ)
    (lo hi result : ℤ) : ℤ :=
  if lo ≤ hi then
    if key (xs.getD ((lo + hi) / 2).toNat default) ≤ t then
      floorSearchGo key xs t ((lo + hi) / 2 + 1) hi ((lo + hi) / 2)
    else
      floorSearchGo key xs t lo ((lo + hi) / 2 - 1) result
  else result
termination_by (hi + 1 - lo).toNat
decreasing_by all_goals (simp_wf; omega)

/-- `binarySearchFloor(beats, time)` from useBeatSync.ts: `lo = 0`,
`hi = beats.length - 1`, `result = -1`. -/
def binarySearchFloor (beats : List Beat) (time : ℚ) : ℤ :=
  floorSearchGo (fun b => b.time) beats time 0 ((beats.length : ℤ) - 1) (-1)

/-- `binarySearchBarFloor(bars, time)` from useBeatSync.ts. -/
def binarySearchBarFloor (bars : List Bar) (time : ℚ) : ℤ :=
  floorSearchGo (fun b => b.start) bars time 0 ((bars.length : ℤ) - 1) (-1)

/-- Modelled from the spec: the reference linear scan (`index of last element
with key ≤ t`, among equal keys the last one wins, `-1` when none), scanning
indices `n-1, n-2, …, 0` and returning the first (hence largest) match. -/
def lastIndexLE {α : Type} [Inhabited α] (key : α → ℚ) (xs : List α) (t : ℚ) :
    ℕ → ℤ
  | 0 => -1
  | n + 1 => if key (xs.getD n default) ≤ t then (n : ℤ) else lastIndexLE key xs t n

/-- Modelled from the spec: the linear-scan reference result over the whole
sequence. -/
def linearScanFloor {α : Type} [Inhabited α] (key : α → ℚ) (xs : List α)
    (t : ℚ) : ℤ :=
  lastIndexLE key xs t xs.length

/-- The specification predicate for a floor-search result: `r` is `-1` or a
valid index, every index up to `r` has key `≤ t`, and every index beyond `r`
has key `> t`.  For a sorted sequence this pins down "the index of the last
element with key ≤ t, ties resolved to the last". -/
def isFloorIdx {α : Type} [Inhabited α] (key : α → ℚ) (xs : List α) (t : ℚ)
    (r : ℤ) : Prop :=
  -1 ≤ r ∧ r < (xs.length : ℤ) ∧
  (∀ i : ℕ, (i : ℤ) ≤ r → key (xs.getD i default) ≤ t) ∧
  (∀ i : ℕ, r < (i : ℤ) → i < xs.length → t < key (xs.getD i default))

/-- `currentBeatIdx` of useBeatSync.ts. -/
def currentBeatIdx (beats : List Beat) (t : ℚ) : ℤ :=
  binarySearchFloor beats t

/-- `currentBeat` of useBeatSync.ts: `beats[currentBeatIdx]` when the index is
`≥ 0`, else `null`. -/
def currentBeat (beats : List Beat) (t : ℚ) : Option Beat :=
  if 0 ≤ currentBeatIdx beats t then
    some (beats.getD (currentBeatIdx beats t).toNat default)
  else none

/-- `currentBeatNum` of useBeatSync.ts: the located beat's `beat_num`, or 0
before the first beat. -/
def currentBeatNum (beats : List Beat) (t : ℚ) : ℤ :=
  match currentBeat beats t with
  | some b => b.beat_num
  | none => 0

/-- `currentBarNum` of useBeatSync.ts: locate the bar, then pair consecutive
bars into one cycle (`Math.floor(barIdx / 2)`). -/
def currentBarNum (bars : List Bar) (t : ℚ) : ℤ :=
  let barIdx := binarySearchBarFloor bars t
  if barIdx < 0 then 0 else barIdx / 2

/-- `currentSubdivision` of useBeatSync.ts: the 0–15 slot inside the 8-count
cycle, computed from the located beat's number and the midpoint to the next
beat (`currentTime >= midpoint` is the off-beat test). -/
def currentSubdivision (beats : List Beat) (t : ℚ) : ℤ :=
  let idx := currentBeatIdx beats t
  if idx < 0 ∨ beats.length = 0 then 0
  else
    let onBeatSubdiv := (currentBeatNum beats t - 1) * 2
    if onBeatSubdiv < 0 then 0
    else
      let nextIdx := idx + 1
      if nextIdx < (beats.length : ℤ) then
        let midpoint :=
          ((beats.getD idx.toNat default).time +
            (beats.getD nextIdx.toNat default).time) / 2
        if midpoint ≤ t then min (onBeatSubdiv + 1) 15 else min onBeatSubdiv 15
      else min onBeatSubdiv 15

/-- Modelled from the spec: `subdivision(t, beats, beatIdx)` as §4.1 words it —
`onBeatSlot = (beat_num_at(beatIdx) - 1) * 2`; a negative slot yields 0; the
off-beat slot `onBeatSlot + 1` when a following beat exists and `t` is at or
past the midpoint; result clamped to `[0, 15]`. -/
def subdivisionSpec (beats : List Beat) (beatIdx : ℕ) (t : ℚ) : ℤ :=
  let onBeatSlot := ((beats.getD beatIdx default).beat_num - 1) * 2
  if onBeatSlot < 0 then 0
  else
    let slot :=
      if beatIdx + 1 < beats.length ∧
          ((beats.getD beatIdx default).time +
            (beats.getD (beatIdx + 1) default).time) / 2 ≤ t
      then onBeatSlot + 1
      else onBeatSlot
    min (max slot 0) 15

/-- The concrete beats of the spec's §8 scenario:
`[{0,1},{0.5,2},{1.0,3},{1.5,4}]`. -/
def exampleBeats : List Beat :=
  [⟨0, 1⟩, ⟨1/2, 2⟩, ⟨1, 3⟩, ⟨3/2, 4⟩]

/-- The six stem names (useStemPlayer.ts). -/
inductive StemName where
  | drums
  | bass
  | vocals
  | guitar
  | piano
  | other
deriving DecidableEq, Inhabited

/-- `STEM_NAMES` of useStemPlayer.ts, in source order. -/
def STEM_NAMES : List StemName :=
  [.drums, .bass, .vocals, .guitar, .piano, .other]

/-- `applyGains` of useStemPlayer.ts as the per-stem effective gain it writes
into each gain node: solo overrides mute entirely; otherwise muted stems get 0
and the rest 1. -/
def applyGains (muted : List StemName) (soloed : Option StemName)
    (stem : StemName) : ℚ :=
  match soloed with
  | some s => if stem = s then 1 else 0
  | none => if stem ∈ muted then 0 else 1

/-- `solo` of useStemPlayer.ts: `setSoloedStem (prev => prev === stem ? null :
stem)`. -/
def solo (stem prev : Option StemName) : Option StemName :=
  if prev = stem then none else stem

/-- Transport state of the stem player, collecting the refs and React state of
useStemPlayer.ts that the transport operations touch.  `sources` holds the
offset at which the currently scheduled buffer sources were started (`none`
when all sources are stopped). -/
structure PlayerState where
  offset : ℚ
  startedAt : ℚ
  isPlaying : Bool
  currentTime : ℚ
  duration : ℚ
  sources : Option ℚ
deriving DecidableEq, Inhabited

/-- `stopSources` of useStemPlayer.ts: stop and clear every source node. -/
def stopSources (s : PlayerState) : PlayerState :=
  { s with sources := none }

/-- `startSources(offset)` of useStemPlayer.ts: stop old sources, start one
source per buffer at `offset`, then snapshot `startTimeRef = ctx.currentTime`
and `offsetRef = offset`. -/
def startSources (now offset : ℚ) (s : PlayerState) : PlayerState :=
  { s with sources := some offset, startedAt := now, offset := offset }

/-- `play` of useStemPlayer.ts (stems-available path): restart the sources at
the stored offset and mark the transport playing. -/
def play (now : ℚ) (s : PlayerState) : PlayerState :=
  { startSources now s.offset s with isPlaying := true }

/-- `pause` of useStemPlayer.ts (stems-available path): fold the elapsed clock
time into the stored offset, stop the sources, and mark the transport
paused. -/
def pause (now : ℚ) (s : PlayerState) : PlayerState :=
  { stopSources s with
      offset := s.offset + (now - s.startedAt),
      isPlaying := false }

/-- The playback position exposed to the caller: the `tick` computation
`offset + (ctx.currentTime - startTime)` while playing, the stored offset while
paused (§4.2 `position()`). -/
def position (now : ℚ) (s : PlayerState) : ℚ :=
  if s.isPlaying then s.offset + (now - s.startedAt) else s.offset

/-- `seek(time)` of useStemPlayer.ts (stems-available path): clamp, publish the
clamped time, store it as the offset, and restart the sources only when
playing. -/
def seek (now t : ℚ) (s : PlayerState) : PlayerState :=
  let clampedTime := max 0 (min t s.duration)
  let s₁ := { s with currentTime := clampedTime, offset := clampedTime }
  if s.isPlaying then startSources now clampedTime s₁ else s₁

/-- One play/pause alternation per list entry: `play` at the first clock
reading of the pair, `pause` at the second, with no intervening seek. -/
def runCycles (s : PlayerState) : List (ℚ × ℚ) → PlayerState
  | [] => s
  | c :: rest => runCycles (pause c.2 (play c.1 s)) rest

/-- The `onended` handler installed by `startSources`: recompute the position
and reset the transport only when it is within 0.1s of the duration
(`pos >= duration - 0.1`). -/
def onEnded (now : ℚ) (s : PlayerState) : PlayerState :=
  if s.duration - 1 / 10 ≤ s.offset + (now - s.startedAt) then
    { s with isPlaying := false, currentTime := 0, offset := 0 }
  else s

/-- The stem whose `ended` event `startSources` subscribes to:
`sourcesRef.current.values().next().value`, i.e. the first entry of the
insertion-ordered sources map, which follows the buffer list order. -/
def monitoredStem (buffers : List (StemName × ℚ)) : Option StemName :=
  (buffers.map Prod.fst).head?

/-- Modelled from the spec: "monitor the longest-running source" (§4.5) — the
stem of maximal duration among the loaded buffers, used to compare the code's
monitored source against the specified one. -/
def longestStem (buffers : List (StemName × ℚ)) : Option StemName :=
  (buffers.foldl
    (fun acc p =>
      match acc with
      | none => some p
      | some q => if q.2 < p.2 then some p else some q)
    none).map Prod.fst

/-- The live state written by `load` (useStemPlayer.ts) that a caller can
observe, plus whether the single-stream fallback audio element is armed. -/
structure LiveState where
  isLoading : Bool
  stemsAvailable : Bool
  duration : ℚ
  buffers : List (StemName × ℚ)
  fallbackArmed : Bool
deriving DecidableEq, Inhabited

/-- The synchronous prefix of `load` (everything before the first `await`):
reset the transport flags and duration and drop any fallback audio element.
The buffer map is *not* cleared here — that happens only in the continuation
after the stem tasks settle. -/
def loadBegin (s : LiveState) : LiveState :=
  { s with
      isLoading := true,
      stemsAvailable := false,
      duration := 0,
      fallbackArmed := false }

/-- The per-stem fetch+decode outcome of one `load` call: `some d` is a
successfully decoded buffer of duration `d`, `none` a failed fetch or
decode. -/
def StemOutcome : Type := StemName → Option ℚ

/-- The fulfilled entries of `Promise.allSettled`, in `STEM_NAMES` order. -/
def settledResults (outcome : StemOutcome) : List (StemName × ℚ) :=
  STEM_NAMES.filterMap (fun stem => (outcome stem).map (fun d => (stem, d)))

/-- The continuation of `load` after all six stem tasks settle: zero successes
throws into the catch block, which clears the stem state, arms the fallback
audio element and surfaces no error; otherwise the successful buffers, their
maximum duration (`maxDuration` folded from 0) and the availability flag are
written.  There is no staleness check: the continuation writes whichever
outcome it was given. -/
def loadComplete (outcome : StemOutcome) (s : LiveState) : LiveState :=
  let results := settledResults outcome
  if results.length = 0 then
    { s with
        stemsAvailable := false,
        buffers := [],
        fallbackArmed := true,
        isLoading := false }
  else
    { s with
        buffers := results,
        duration := results.foldl (fun m p => max m p.2) 0,
        stemsAvailable := true,
        isLoading := false }

/-- A buffer list whose first (monitored) stem is not the longest one. -/
def exampleBuffers : List (StemName × ℚ) :=
  [(.drums, 1), (.bass, 2)]

/-- Stem outcome of the first (superseded) load in the C9 scenario: only drums
succeeds, with duration 1. -/
def staleOutcome : StemOutcome :=
  fun stem => if stem = .drums then some 1 else none

/-- Stem outcome of the second (current) load in the C9 scenario: only drums
succeeds, with duration 2. -/
def freshOutcome : StemOutcome :=
  fun stem => if stem = .drums then some 2 else none

/-- An initial live state before any load. -/
def initLive : LiveState :=
  { isLoading := false, stemsAvailable := false, duration := 0,
    buffers := [], fallbackArmed := false }

/-- Small whole-valued beat sequence used by concrete witnesses. -/
def wBeats : List Beat :=
  [⟨0, 1⟩, ⟨2, 2⟩]

/-- Small whole-valued bar sequence used by concrete witnesses. -/
def wBars : List Bar :=
  [⟨0, 2, 0⟩, ⟨2, 4, 1⟩]

/-- A concrete paused transport state used by witnesses. -/
def wPlayer : PlayerState :=
  { offset := 0, startedAt := 0, isPlaying := false, currentTime := 0,
    duration := 10, sources := none }

/-- A stem outcome with 4 of 6 stems succeeding (spec §8 scenario). -/
def wOutcome : StemOutcome :=
  fun stem =>
    match stem with
    | .drums => some 2
    | .bass => some 1
    | .vocals => none
    | .guitar => none
    | .piano => some 1
    | .other => some 2

/-- The all-failing stem outcome. -/
def noneOutcome : StemOutcome :=
  fun _ => none

theorem floorSearchGo_spec {α : Type} [Inhabited α] (key : α → ℚ) (xs : List α) (t : ℚ)
    (hmono : ∀ i j : ℕ, i ≤ j → j < xs.length →
      key (xs.getD i default) ≤ key (xs.getD j default)) :
    ∀ (n : ℕ) (lo hi result : ℤ), (hi + 1 - lo).toNat = n →
    result = lo - 1 →
    0 ≤ lo → hi < (xs.length : ℤ) → lo ≤ hi + 1 →
    (∀ i : ℕ, (i : ℤ) < lo → key (xs.getD i default) ≤ t) →
    (∀ i : ℕ, hi < (i : ℤ) → i < xs.length → t < key (xs.getD i default)) →
    isFloorIdx key xs t (floorSearchGo key xs t lo hi result) := by
  intro n
  induction n using Nat.strong_induction_on with
  | _ n ih =>
    intro lo hi result hn hres h0 h1 h2 hleft hright
    rw [floorSearchGo]
    split
    case isTrue h =>
      have hmid1 : lo ≤ (lo + hi) / 2 := by omega
      have hmid2 : (lo + hi) / 2 ≤ hi := by omega
      split
      case isTrue hkey =>
        refine ih ((hi + 1 - ((lo + hi) / 2 + 1)).toNat) (by omega) _ _ _ rfl (by ring)
          (by omega) h1 (by omega) ?_ hright
        intro i hi'
        have himid : ((lo + hi) / 2).toNat < xs.length := by omega
        have hile : i ≤ ((lo + hi) / 2).toNat := by omega
        calc key (xs.getD i default) ≤ key (xs.getD ((lo + hi) / 2).toNat default) :=
              hmono i _ hile himid
          _ ≤ t := hkey
      case isFalse hkey =>
        refine ih ((((lo + hi) / 2 - 1) + 1 - lo).toNat) (by omega) _ _ _ rfl hres
          h0 (by omega) (by omega) hleft ?_
        intro i hi' hilen
        have himid : ((lo + hi) / 2).toNat ≤ i := by omega
        have hmo := hmono ((lo + hi) / 2).toNat i himid hilen
        have ht : t < key (xs.getD ((lo + hi) / 2).toNat default) := lt_of_not_le hkey
        exact lt_of_lt_of_le ht hmo
    case isFalse h =>
      subst hres
      refine ⟨by omega, by omega, ?_, ?_⟩
      · intro i hi'
        exact hleft i (by omega)
      · intro i hi' hilen
        exact hright i (by omega) hilen

theorem sorted_key_mono {α : Type} [Inhabited α] (key : α → ℚ) (xs : List α)
    (hs : List.Sorted (· ≤ ·) (xs.map key)) :
    ∀ i j : ℕ, i ≤ j → j < xs.length →
      key (xs.getD i default) ≤ key (xs.getD j default) := by
  intro i j hij hj
  have hi : i < xs.length := Nat.lt_of_le_of_lt hij hj
  have hi' : i < (xs.map key).length := by simpa using hi
  have hj' : j < (xs.map key).length := by simpa using hj
  have h2 : (xs.map key).get ⟨i, hi'⟩ ≤ (xs.map key).get ⟨j, hj'⟩ :=
    hs.rel_get_of_le (Fin.mk_le_mk.mpr hij)
  rw [List.getD_eq_getElem _ _ hi, List.getD_eq_getElem _ _ hj]
  simpa using h2

theorem isFloorIdx_unique {α : Type} [Inhabited α] (key : α → ℚ) (xs : List α)
    (t : ℚ) (r₁ r₂ : ℤ) (h₁ : isFloorIdx key xs t r₁) (h₂ : isFloorIdx key xs t r₂) :
    r₁ = r₂ := by
  obtain ⟨ha₁, hb₁, hc₁, hd₁⟩ := h₁
  obtain ⟨ha₂, hb₂, hc₂, hd₂⟩ := h₂
  by_contra hne
  rcases lt_or_gt_of_ne hne with hlt | hgt
  · have h0 : 0 ≤ r₂ := by omega
    have hle : key (xs.getD r₂.toNat default) ≤ t := hc₂ r₂.toNat (by omega)
    have hgt' : t < key (xs.getD r₂.toNat default) := hd₁ r₂.toNat (by omega) (by omega)
    exact absurd hle (not_le_of_lt hgt')
  · have h0 : 0 ≤ r₁ := by omega
    have hle : key (xs.getD r₁.toNat default) ≤ t := hc₁ r₁.toNat (by omega)
    have hgt' : t < key (xs.getD r₁.toNat default) := hd₂ r₁.toNat (by omega) (by omega)
    exact absurd hle (not_le_of_lt hgt')

theorem lastIndexLE_isFloorIdx {α : Type} [Inhabited α] (key : α → ℚ) (xs : List α)
    (t : ℚ)
    (hmono : ∀ i j : ℕ, i ≤ j → j < xs.length →
      key (xs.getD i default) ≤ key (xs.getD j default)) :
    ∀ n : ℕ, n ≤ xs.length →
    (∀ i : ℕ, n ≤ i → i < xs.length → t < key (xs.getD i default)) →
    isFloorIdx key xs t (lastIndexLE key xs t n) := by
  intro n
  induction n with
  | zero =>
    intro _ habove
    simp only [lastIndexLE]
    exact ⟨le_refl _, by omega, fun i hi => absurd hi (by omega), fun i _ hilen =>
      habove i (Nat.zero_le i) hilen⟩
  | succ n ihn =>
    intro hn habove
    rw [lastIndexLE]
    split
    case isTrue hkey =>
      refine ⟨by omega, by omega, ?_, ?_⟩
      · intro i hile
        exact le_trans (hmono i n (by omega) (by omega)) hkey
      · intro i higt hilen
        exact habove i (by omega) hilen
    case isFalse hkey =>
      refine ihn (by omega) ?_
      intro i hige hilen
      rcases Nat.eq_or_lt_of_le hige with heq | hlt
      · subst heq
        exact lt_of_not_le hkey
      · exact habove i (by omega) hilen

theorem floorSearchGo_bounds {α : Type} [Inhabited α] (key : α → ℚ) (xs : List α)
    (t : ℚ) :
    ∀ (n : ℕ) (lo hi result : ℤ), (hi + 1 - lo).toNat = n →
    -1 ≤ result → result < (xs.length : ℤ) → 0 ≤ lo → hi < (xs.length : ℤ) →
    -1 ≤ floorSearchGo key xs t lo hi result ∧
      floorSearchGo key xs t lo hi result < (xs.length : ℤ) := by
  intro n
  induction n using Nat.strong_induction_on with
  | _ n ih =>
    intro lo hi result hn hr1 hr2 h0 h1
    rw [floorSearchGo]
    split
    case isTrue h =>
      split
      case isTrue hkey =>
        exact ih ((hi + 1 - ((lo + hi) / 2 + 1)).toNat) (by omega) _ _ _ rfl
          (by omega) (by omega) (by omega) h1
      case isFalse hkey =>
        exact ih ((((lo + hi) / 2 - 1) + 1 - lo).toNat) (by omega) _ _ _ rfl
          hr1 hr2 h0 (by omega)
    case isFalse h =>
      exact ⟨hr1, hr2⟩

theorem floorSearch_initial_isFloorIdx {α : Type} [Inhabited α] (key : α → ℚ)
    (xs : List α) (t : ℚ)
    (hmono : ∀ i j : ℕ, i ≤ j → j < xs.length →
      key (xs.getD i default) ≤ key (xs.getD j default)) :
    isFloorIdx key xs t (floorSearchGo key xs t 0 ((xs.length : ℤ) - 1) (-1)) := by
  refine floorSearchGo_spec key xs t hmono _ 0 ((xs.length : ℤ) - 1) (-1) rfl
    (by omega) (le_refl 0) (by omega) (by omega) ?_ ?_
  · intro i hi
    exact absurd hi (by omega)
  · intro i hi hilen
    omega

theorem binarySearchFloor_isFloorIdx (beats : List Beat) (t : ℚ)
    (hs : List.Sorted (· ≤ ·) (beats.map Beat.time)) :
    isFloorIdx (fun b => b.time) beats t (binarySearchFloor beats t) :=
  floorSearch_initial_isFloorIdx _ beats t (sorted_key_mono _ beats hs)

theorem binarySearchBarFloor_isFloorIdx (bars : List Bar) (t : ℚ)
    (hs : List.Sorted (· ≤ ·) (bars.map Bar.start)) :
    isFloorIdx (fun b => b.start) bars t (binarySearchBarFloor bars t) :=
  floorSearch_initial_isFloorIdx _ bars t (sorted_key_mono _ bars hs)

theorem linearScanFloor_isFloorIdx {α : Type} [Inhabited α] (key : α → ℚ)
    (xs : List α) (t : ℚ)
    (hmono : ∀ i j : ℕ, i ≤ j → j < xs.length →
      key (xs.getD i default) ≤ key (xs.getD j default)) :
    isFloorIdx key xs t (linearScanFloor key xs t) := by
  refine lastIndexLE_isFloorIdx key xs t hmono xs.length (le_refl _) ?_
  intro i hi hilen
  omega

theorem binarySearchFloor_bounds (beats : List Beat) (t : ℚ) :
    -1 ≤ binarySearchFloor beats t ∧
      binarySearchFloor beats t < (beats.length : ℤ) :=
  floorSearchGo_bounds _ beats t _ 0 ((beats.length : ℤ) - 1) (-1) rfl
    (le_refl _) (by omega) (le_refl 0) (by omega)

theorem binarySearchBarFloor_bounds (bars : List Bar) (t : ℚ) :
    -1 ≤ binarySearchBarFloor bars t ∧
      binarySearchBarFloor bars t < (bars.length : ℤ) :=
  floorSearchGo_bounds _ bars t _ 0 ((bars.length : ℤ) - 1) (-1) rfl
    (le_refl _) (by omega) (le_refl 0) (by omega)

theorem binarySearchFloor_mono (beats : List Beat) (t₁ t₂ : ℚ)
    (hs : List.Sorted (· ≤ ·) (beats.map Beat.time)) (ht : t₁ ≤ t₂) :
    binarySearchFloor beats t₁ ≤ binarySearchFloor beats t₂ := by
  obtain ⟨ha₁, hb₁, hc₁, hd₁⟩ := binarySearchFloor_isFloorIdx beats t₁ hs
  obtain ⟨ha₂, hb₂, hc₂, hd₂⟩ := binarySearchFloor_isFloorIdx beats t₂ hs
  by_contra hlt
  push_neg at hlt
  have h0 : 0 ≤ binarySearchFloor beats t₁ := by omega
  have h1 : (fun b => b.time) (beats.getD (binarySearchFloor beats t₁).toNat default) ≤ t₁ :=
    hc₁ _ (by omega)
  have h2 : t₂ < (fun b => b.time) (beats.getD (binarySearchFloor beats t₁).toNat default) :=
    hd₂ _ (by omega) (by omega)
  have := lt_of_le_of_lt (le_trans h1 ht) h2
  exact absurd this (lt_irrefl _)

/-- C1: for a sorted beats sequence, `binarySearchFloor` (locateBeat) returns
the index of the last beat with `time ≤ t` — equal to a linear scan with
last-one-wins tie-breaking; for `t` before the first beat it returns `-1` and
`currentBeatNum` reports 0; for `t` at or past the last beat's time it returns
the last index; the same holds for `binarySearchBarFloor` (locateBar) over
`bar.start`. -/
theorem locateBeat_locateBar_floor_spec (beats : List Beat) (bars : List Bar)
    (t : ℚ)
    (hbeats : List.Sorted (· ≤ ·) (beats.map Beat.time))
    (hbars : List.Sorted (· ≤ ·) (bars.map Bar.start)) :
    binarySearchFloor beats t = linearScanFloor (fun b => b.time) beats t ∧
    isFloorIdx (fun b => b.time) beats t (binarySearchFloor beats t) ∧
    (beats ≠ [] → t < (beats.getD 0 default).time →
      binarySearchFloor beats t = -1 ∧ currentBeatNum beats t = 0) ∧
    (beats ≠ [] → (beats.getD (beats.length - 1) default).time ≤ t →
      binarySearchFloor beats t = (beats.length : ℤ) - 1) ∧
    binarySearchBarFloor bars t = linearScanFloor (fun b => b.start) bars t ∧
    isFloorIdx (fun b => b.start) bars t (binarySearchBarFloor bars t) := by
  have hmb := sorted_key_mono _ beats hbeats
  have hmr := sorted_key_mono _ bars hbars
  have hfb := binarySearchFloor_isFloorIdx beats t hbeats
  have hfr := binarySearchBarFloor_isFloorIdx bars t hbars
  refine ⟨isFloorIdx_unique _ _ _ _ _ hfb (linearScanFloor_isFloorIdx _ _ _ hmb),
    hfb, ?_, ?_,
    isFloorIdx_unique _ _ _ _ _ hfr (linearScanFloor_isFloorIdx _ _ _ hmr), hfr⟩
  · intro hne hlt
    obtain ⟨ha, hb, hc, hd⟩ := hfb
    have hlen : 0 < beats.length := List.length_pos.mpr hne
    have hres : binarySearchFloor beats t = -1 := by
      by_contra hzero
      have h0 : 0 ≤ binarySearchFloor beats t := by omega
      have hc0 := hc 0 (by omega)
      exact absurd (lt_of_le_of_lt hc0 hlt) (lt_irrefl _)
    refine ⟨hres, ?_⟩
    simp [currentBeatNum, currentBeat, currentBeatIdx, hres]
  · intro hne hle
    obtain ⟨ha, hb, hc, hd⟩ := hfb
    have hlen : 0 < beats.length := List.length_pos.mpr hne
    by_contra hneq
    have hlt : binarySearchFloor beats t < (beats.length : ℤ) - 1 := by omega
    have hdl := hd (beats.length - 1) (by omega) (by omega)
    exact absurd (lt_of_le_of_lt hle hdl) (lt_irrefl _)

/-- Witness for C1 at whole-valued concrete inputs. -/
theorem locateBeat_locateBar_floor_spec_witness :
    List.Sorted (· ≤ ·) (wBeats.map Beat.time) ∧
    List.Sorted (· ≤ ·) (wBars.map Bar.start) ∧
    binarySearchFloor wBeats 1 = linearScanFloor (fun b => b.time) wBeats 1 :=
  ⟨by decide, by decide,
    (locateBeat_locateBar_floor_spec wBeats wBars 1 (by decide) (by decide)).1⟩

/-- C10: both searches are total (the embedding is a terminating function) and
always return `-1` or an index inside `[0, length - 1]`, so the guarded
element access `beats[currentBeatIdx]` is in bounds, and the empty sequence
yields `-1`. -/
theorem binarySearch_bounds_safety (beats : List Beat) (bars : List Bar)
    (t : ℚ) :
    (binarySearchFloor beats t = -1 ∨
      (0 ≤ binarySearchFloor beats t ∧
        binarySearchFloor beats t < (beats.length : ℤ))) ∧
    (0 ≤ binarySearchFloor beats t →
      (binarySearchFloor beats t).toNat < beats.length) ∧
    (beats = [] → binarySearchFloor beats t = -1) ∧
    (binarySearchBarFloor bars t = -1 ∨
      (0 ≤ binarySearchBarFloor bars t ∧
        binarySearchBarFloor bars t < (bars.length : ℤ))) ∧
    (bars = [] → binarySearchBarFloor bars t = -1) := by
  have h1 := binarySearchFloor_bounds beats t
  have h2 := binarySearchBarFloor_bounds bars t
  refine ⟨by omega, by omega, ?_, by omega, ?_⟩
  · intro he
    subst he
    simp only [List.length_nil, Nat.cast_zero] at h1
    omega
  · intro he
    subst he
    simp only [List.length_nil, Nat.cast_zero] at h2
    omega

/-- Witness for C10: the guards hold at concrete inputs (empty sequences give
-1; a found index is in bounds). -/
theorem binarySearch_bounds_safety_witness :
    (([] : List Beat) = [] ∧ binarySearchFloor [] 0 = -1) ∧
    (([] : List Bar) = [] ∧ binarySearchBarFloor [] 0 = -1) :=
  ⟨⟨rfl, (binarySearch_bounds_safety [] [] 0).2.2.1 rfl⟩,
    ⟨rfl, (binarySearch_bounds_safety [] [] 0).2.2.2.2 rfl⟩⟩

theorem currentBeatNum_of_nonneg (beats : List Beat) (t : ℚ)
    (h : 0 ≤ binarySearchFloor beats t) :
    currentBeatNum beats t =
      (beats.getD (binarySearchFloor beats t).toNat default).beat_num := by
  simp [currentBeatNum, currentBeat, currentBeatIdx, h]

/-- C2: whenever a beat is located, the code's subdivision equals the spec
formula — `(beat_num - 1) * 2`, plus 1 when a following beat exists and `t` is
at or past the midpoint, 0 for a negative on-beat slot, clamped to `[0, 15]`;
and in the §8 scenario with `t = 0.26` the located index is 0 (beat_num 1) and
the subdivision is 1. -/
theorem currentSubdivision_formula_spec :
    (∀ (beats : List Beat) (t : ℚ), 0 ≤ binarySearchFloor beats t →
      currentSubdivision beats t =
        subdivisionSpec beats (binarySearchFloor beats t).toNat t) ∧
    binarySearchFloor exampleBeats (26 / 100) = 0 ∧
    currentBeatNum exampleBeats (26 / 100) = 1 ∧
    currentSubdivision exampleBeats (26 / 100) = 1 := by
  constructor
  · intro beats t h
    have hb := binarySearchFloor_bounds beats t
    have hlen : 0 < beats.length := by omega
    have hnum := currentBeatNum_of_nonneg beats t h
    simp only [currentSubdivision, currentBeatIdx, subdivisionSpec]
    rw [if_neg (not_or.mpr ⟨by omega, by omega⟩), hnum]
    by_cases hneg :
        ((beats.getD (binarySearchFloor beats t).toNat default).beat_num - 1) *
          2 < 0
    · rw [if_pos hneg, if_pos hneg]
    · rw [if_neg hneg, if_neg hneg]
      simp only [show (binarySearchFloor beats t + 1).toNat =
        (binarySearchFloor beats t).toNat + 1 from by omega]
      by_cases hlt : (binarySearchFloor beats t).toNat + 1 < beats.length
      · rw [if_pos (show binarySearchFloor beats t + 1 < (beats.length : ℤ)
          from by omega)]
        by_cases hmid :
            ((beats.getD (binarySearchFloor beats t).toNat default).time +
              (beats.getD ((binarySearchFloor beats t).toNat + 1)
                default).time) / 2 ≤ t
        · rw [if_pos hmid, if_pos ⟨hlt, hmid⟩, max_eq_left (by omega)]
        · rw [if_neg hmid, if_neg (fun hc => hmid hc.2),
            max_eq_left (by omega)]
      · rw [if_neg (show ¬binarySearchFloor beats t + 1 < (beats.length : ℤ)
          from by omega), if_neg (fun hc => hlt hc.1), max_eq_left (by omega)]
  · refine ⟨?_, ?_, ?_⟩ <;>
      simp [currentSubdivision, currentBeatIdx, currentBeatNum,
        currentBeat, binarySearchFloor, floorSearchGo, exampleBeats] <;>
      norm_num

/-- Witness for C2: the general formula instantiated in the §8 scenario. -/
theorem currentSubdivision_formula_spec_witness :
    0 ≤ binarySearchFloor exampleBeats (26 / 100) ∧
    currentSubdivision exampleBeats (26 / 100) =
      subdivisionSpec exampleBeats
        (binarySearchFloor exampleBeats (26 / 100)).toNat (26 / 100) :=
  ⟨by simp [binarySearchFloor, floorSearchGo, exampleBeats] <;> norm_num,
    currentSubdivision_formula_spec.1 exampleBeats (26 / 100)
      (by simp [binarySearchFloor, floorSearchGo, exampleBeats] <;> norm_num)⟩

theorem currentSubdivision_range (beats : List Beat) (t : ℚ) :
    0 ≤ currentSubdivision beats t ∧ currentSubdivision beats t ≤ 15 := by
  simp only [currentSubdivision]
  split
  · exact ⟨le_refl 0, by norm_num⟩
  · split
    · exact ⟨le_refl 0, by norm_num⟩
    · split
      · split <;> constructor <;> omega
      · constructor <;> omega

theorem currentSubdivision_zero_of_nonpos (beats : List Beat) (t : ℚ)
    (h : 0 ≤ binarySearchFloor beats t)
    (hb : (beats.getD (binarySearchFloor beats t).toNat default).beat_num ≤ 0) :
    currentSubdivision beats t = 0 := by
  have hbo := binarySearchFloor_bounds beats t
  simp only [currentSubdivision, currentBeatIdx]
  rw [if_neg (not_or.mpr ⟨by omega, by omega⟩),
    currentBeatNum_of_nonneg beats t h, if_pos (by omega)]

theorem currentSubdivision_mono_same_idx (beats : List Beat) (t₁ t₂ : ℚ)
    (ht : t₁ ≤ t₂)
    (heq : binarySearchFloor beats t₁ = binarySearchFloor beats t₂) :
    currentSubdivision beats t₁ ≤ currentSubdivision beats t₂ := by
  by_cases h : 0 ≤ binarySearchFloor beats t₁
  · have hbo := binarySearchFloor_bounds beats t₁
    have h2 : 0 ≤ binarySearchFloor beats t₂ := heq ▸ h
    have hnum : currentBeatNum beats t₂ = currentBeatNum beats t₁ := by
      rw [currentBeatNum_of_nonneg beats t₁ h,
        currentBeatNum_of_nonneg beats t₂ h2, heq]
    simp only [currentSubdivision, currentBeatIdx]
    simp only [← heq, hnum]
    have hcond : ¬(binarySearchFloor beats t₁ < 0 ∨ beats.length = 0) :=
      not_or.mpr ⟨by omega, by omega⟩
    rw [if_neg hcond, if_neg hcond]
    split
    · exact le_refl 0
    · split
      · split
        next h1 =>
          rw [if_pos (le_trans h1 ht)]
        next h1 =>
          split <;> omega
      · exact le_refl _
  · push_neg at h
    have h2 : binarySearchFloor beats t₂ < 0 := heq ▸ h
    simp only [currentSubdivision, currentBeatIdx]
    rw [if_pos (Or.inl h), if_pos (Or.inl h2)]

theorem currentSubdivision_lower (beats : List Beat) (t : ℚ)
    (h : 0 ≤ binarySearchFloor beats t)
    (hb : 1 ≤ (beats.getD (binarySearchFloor beats t).toNat default).beat_num) :
    min (((beats.getD (binarySearchFloor beats t).toNat default).beat_num - 1)
        * 2) 15 ≤
      currentSubdivision beats t := by
  have hbo := binarySearchFloor_bounds beats t
  simp only [currentSubdivision, currentBeatIdx]
  rw [if_neg (not_or.mpr ⟨by omega, by omega⟩),
    currentBeatNum_of_nonneg beats t h, if_neg (by omega)]
  split
  · split <;> omega
  · omega

theorem currentSubdivision_upper (beats : List Beat) (t : ℚ)
    (h : 0 ≤ binarySearchFloor beats t)
    (hb : 1 ≤ (beats.getD (binarySearchFloor beats t).toNat default).beat_num) :
    currentSubdivision beats t ≤
      min (((beats.getD (binarySearchFloor beats t).toNat default).beat_num - 1)
        * 2 + 1) 15 := by
  have hbo := binarySearchFloor_bounds beats t
  simp only [currentSubdivision, currentBeatIdx]
  rw [if_neg (not_or.mpr ⟨by omega, by omega⟩),
    currentBeatNum_of_nonneg beats t h, if_neg (by omega)]
  split
  · split <;> omega
  · omega

/-- C7: subdivision is monotone in `t` across a run of beats with strictly
increasing beat numbers (one cycle); it always lies in `[0, 15]`; and it is 0
at the starting time of a beat numbered 1 (the start of the next cycle). -/
theorem currentSubdivision_monotone_cycle (beats : List Beat) (t₁ t₂ : ℚ)
    (hs : List.Sorted (· ≤ ·) (beats.map Beat.time))
    (ht : t₁ ≤ t₂)
    (h₁ : 0 ≤ binarySearchFloor beats t₁)
    (hcyc : ∀ i j : ℕ, (binarySearchFloor beats t₁).toNat ≤ i → i < j →
      j ≤ (binarySearchFloor beats t₂).toNat → j < beats.length →
      (beats.getD i default).beat_num < (beats.getD j default).beat_num) :
    currentSubdivision beats t₁ ≤ currentSubdivision beats t₂ ∧
    (∀ (bs : List Beat) (u : ℚ),
      0 ≤ currentSubdivision bs u ∧ currentSubdivision bs u ≤ 15) ∧
    (∀ (bs : List Beat) (u : ℚ) (i : ℕ),
      binarySearchFloor bs u = (i : ℤ) →
      i < bs.length →
      (bs.getD i default).beat_num = 1 →
      u = (bs.getD i default).time →
      (i + 1 < bs.length →
        (bs.getD i default).time < (bs.getD (i + 1) default).time) →
      currentSubdivision bs u = 0) := by
  refine ⟨?_, fun bs u => currentSubdivision_range bs u, ?_⟩
  · have hmono := binarySearchFloor_mono beats t₁ t₂ hs ht
    have hb₂ := binarySearchFloor_bounds beats t₂
    rcases eq_or_lt_of_le hmono with heq | hlt
    · exact currentSubdivision_mono_same_idx beats t₁ t₂ ht heq
    · have h₂ : 0 ≤ binarySearchFloor beats t₂ := by omega
      by_cases hbn :
          1 ≤ (beats.getD (binarySearchFloor beats t₁).toNat default).beat_num
      · have hBlt := hcyc (binarySearchFloor beats t₁).toNat
          (binarySearchFloor beats t₂).toNat (le_refl _) (by omega)
          (le_refl _) (by omega)
        have hup := currentSubdivision_upper beats t₁ h₁ hbn
        have hlow := currentSubdivision_lower beats t₂ h₂ (by omega)
        refine le_trans hup (le_trans ?_ hlow)
        exact min_le_min (by omega) (le_refl 15)
      · rw [currentSubdivision_zero_of_nonpos beats t₁ h₁ (by omega)]
        exact (currentSubdivision_range beats t₂).1
  · intro bs u i hbsf hilen hbn hu hstrict
    have hge : 0 ≤ binarySearchFloor bs u := by
      rw [hbsf]
      exact Int.natCast_nonneg i
    have hbo := binarySearchFloor_bounds bs u
    simp only [currentSubdivision, currentBeatIdx]
    rw [if_neg (not_or.mpr ⟨by omega, by omega⟩),
      currentBeatNum_of_nonneg bs u hge]
    simp only [hbsf, Int.toNat_natCast,
      show ((i : ℤ) + 1).toNat = i + 1 from by omega]
    rw [hbn, if_neg (by norm_num)]
    split
    case isTrue hnext =>
      have hlt : (bs.getD i default).time < (bs.getD (i + 1) default).time := by
        apply hstrict
        omega
      have hmid : ¬((bs.getD i default).time +
          (bs.getD (i + 1) default).time) / 2 ≤ u := by
        rw [hu]
        intro hc
        nlinarith
      rw [if_neg hmid]
      norm_num
    case isFalse hnext =>
      norm_num

/-- Witness for C7 at a two-beat single cycle with whole-valued times. -/
theorem currentSubdivision_monotone_cycle_witness :
    List.Sorted (· ≤ ·) (wBeats.map Beat.time) ∧
    (0 : ℚ) ≤ 2 ∧
    0 ≤ binarySearchFloor wBeats 0 ∧
    currentSubdivision wBeats 0 ≤ currentSubdivision wBeats 2 := by
  have e0 : binarySearchFloor wBeats 0 = 0 := by
    simp [binarySearchFloor, floorSearchGo, wBeats]
  have e2 : binarySearchFloor wBeats 2 = 1 := by
    simp [binarySearchFloor, floorSearchGo, wBeats]
  refine ⟨by decide, by norm_num, by rw [e0], ?_⟩
  refine (currentSubdivision_monotone_cycle wBeats 0 2 (by decide) (by norm_num)
    (by rw [e0]) ?_).1
  intro i j hi hij hj hjlen
  rw [e2] at hj
  have hij' : i = 0 ∧ j = 1 := by omega
  rw [hij'.1, hij'.2]
  decide

/-- C3: `pause` persists `offset + (clockNow - startedAt)`, so the position
read after `pause` equals the position at the instant `pause` was called; a
subsequent `play` restarts from exactly that offset; and over any list of
play/pause alternations the stored offset accumulates exactly the elapsed
play-phase durations — no time is lost or duplicated. -/
theorem play_pause_roundtrip_no_drift (s : PlayerState) (tp tq tr u : ℚ)
    (l : List (ℚ × ℚ)) :
    position u (pause tq (play tp s)) = position tq (play tp s) ∧
    (play tr (pause tq (play tp s))).offset = position tq (play tp s) ∧
    (runCycles s l).offset = s.offset + (l.map fun c => c.2 - c.1).sum := by
  refine ⟨?_, ?_, ?_⟩
  · simp [position, pause, play, startSources, stopSources]
  · simp [position, pause, play, startSources, stopSources]
  · induction l generalizing s with
    | nil => simp [runCycles]
    | cons c rest ih =>
      rw [runCycles, ih]
      simp only [pause, play, startSources, stopSources, List.map_cons,
        List.sum_cons]
      ring

/-- C5: when a stem is soloed its effective gain is 1 and every other stem's is
0 regardless of the muted set; with no solo, muted stems get 0 and the rest 1;
soloing an already-soloed stem clears the solo state. -/
theorem mixer_solo_precedence (muted : List StemName) (A B : StemName)
    (hAB : B ≠ A) :
    applyGains muted (some A) A = 1 ∧
    applyGains muted (some A) B = 0 ∧
    (∀ st : StemName, applyGains muted none st =
      if st ∈ muted then 0 else 1) ∧
    solo (some A) (some A) = none := by
  refine ⟨?_, ?_, fun st => rfl, ?_⟩
  · simp [applyGains]
  · simp [applyGains, hAB]
  · simp [solo]

/-- Witness for C5 with drums soloed, bass muted. -/
theorem mixer_solo_precedence_witness :
    StemName.bass ≠ StemName.drums ∧
    applyGains [StemName.bass] (some StemName.drums) StemName.drums = 1 ∧
    applyGains [StemName.bass] (some StemName.drums) StemName.bass = 0 :=
  ⟨by decide,
    (mixer_solo_precedence [StemName.bass] StemName.drums StemName.bass
      (by decide)).1,
    (mixer_solo_precedence [StemName.bass] StemName.drums StemName.bass
      (by decide)).2.1⟩

/-- C6: `seek` clamps the target to `[0, duration]`; the published time, stored
offset, and a subsequent position read all equal the clamped value; when paused
no sources are started and the clock snapshot is untouched; when playing the
sources are restarted at the new offset with a fresh snapshot. -/
theorem seek_clamp_currentTime (s : PlayerState) (now t : ℚ)
    (hdur : 0 ≤ s.duration) :
    position now (seek now t s) = max 0 (min t s.duration) ∧
    (seek now t s).currentTime = max 0 (min t s.duration) ∧
    (seek now t s).offset = max 0 (min t s.duration) ∧
    0 ≤ max 0 (min t s.duration) ∧
    max 0 (min t s.duration) ≤ s.duration ∧
    (0 ≤ t → t ≤ s.duration → max 0 (min t s.duration) = t) ∧
    (s.isPlaying = false → (seek now t s).sources = s.sources ∧
      (seek now t s).startedAt = s.startedAt) ∧
    (s.isPlaying = true →
      (seek now t s).sources = some (max 0 (min t s.duration)) ∧
      (seek now t s).startedAt = now) := by
  have hclamp : ∀ h1 : (0 : ℚ) ≤ t, t ≤ s.duration → max 0 (min t s.duration) = t := by
    intro h1 h2
    rw [min_eq_left h2, max_eq_right h1]
  cases hp : s.isPlaying
  · refine ⟨?_, ?_, ?_, le_max_left _ _, max_le hdur (min_le_right _ _),
      hclamp, fun _ => ⟨?_, ?_⟩, fun hc => absurd hc (by simp [hp])⟩ <;>
      simp [seek, position, startSources, hp]
  · refine ⟨?_, ?_, ?_, le_max_left _ _, max_le hdur (min_le_right _ _),
      hclamp, fun hc => absurd hc (by simp [hp]), fun _ => ⟨?_, ?_⟩⟩ <;>
      simp [seek, position, startSources, hp]

/-- Witness for C6 at a concrete paused state and in-range target. -/
theorem seek_clamp_currentTime_witness :
    (0 : ℚ) ≤ wPlayer.duration ∧
    position 5 (seek 5 3 wPlayer) = max 0 (min 3 wPlayer.duration) :=
  ⟨by decide, (seek_clamp_currentTime wPlayer 5 3 (by decide)).1⟩

/-- C8 counterexample: the `ended` handler is attached to the first source of
the insertion-ordered map, which is not the longest-running stem — here drums
(duration 1) is monitored while bass (duration 2) runs longest. -/
theorem monitored_not_longest_counterexample :
    monitoredStem exampleBuffers = some StemName.drums ∧
    longestStem exampleBuffers = some StemName.bass ∧
    monitoredStem exampleBuffers ≠ longestStem exampleBuffers := by
  refine ⟨rfl, ?_, ?_⟩ <;> decide

/-- C8 (amended): end-of-track detection monitors the *first started* source
(not necessarily the longest); when its `ended` event fires the transport
auto-pauses and resets to 0 exactly when the computed position is within 0.1s
of the duration, so a short stem ending early never triggers the reset. -/
theorem onEnded_tolerance_spec (buffers : List (StemName × ℚ))
    (s : PlayerState) (now : ℚ) :
    monitoredStem buffers = (buffers.map Prod.fst).head? ∧
    (s.duration - 1 / 10 ≤ s.offset + (now - s.startedAt) →
      onEnded now s =
        { s with isPlaying := false, currentTime := 0, offset := 0 }) ∧
    (s.offset + (now - s.startedAt) < s.duration - 1 / 10 →
      onEnded now s = s) := by
  refine ⟨rfl, ?_, ?_⟩
  · intro h
    simp only [onEnded]
    rw [if_pos h]
  · intro h
    simp only [onEnded]
    rw [if_neg (not_le.mpr h)]

/-- Witness for C8: at the true end of the track the handler resets the
transport. -/
theorem onEnded_tolerance_spec_witness :
    wPlayer.duration - 1 / 10 ≤ 10 + (5 - 5) ∧
    onEnded 5 { wPlayer with offset := 10, startedAt := 5, isPlaying := true } =
      { wPlayer with offset := 0, startedAt := 5, isPlaying := false, currentTime := 0 } :=
  ⟨by norm_num [wPlayer],
    (onEnded_tolerance_spec []
      { wPlayer with offset := 10, startedAt := 5, isPlaying := true }
      5).2.1 (by norm_num [wPlayer])⟩

theorem settled_map_fst (outcome : StemOutcome) :
    ∀ l : List StemName,
      (l.filterMap (fun stem => (outcome stem).map (fun d => (stem, d)))).map
          Prod.fst =
        l.filter (fun stem => (outcome stem).isSome) := by
  intro l
  induction l with
  | nil => rfl
  | cons a l ih =>
    cases h : outcome a <;>
      simp [List.filterMap_cons, h, List.filter_cons, ih]

theorem settled_mem (outcome : StemOutcome) :
    ∀ (l : List StemName) (p : StemName × ℚ),
      p ∈ l.filterMap (fun stem => (outcome stem).map (fun d => (stem, d))) →
      outcome p.1 = some p.2 := by
  intro l
  induction l with
  | nil => intro p hp; simp at hp
  | cons a l ih =>
    intro p hp
    cases h : outcome a with
    | none =>
      simp only [List.filterMap_cons, h, Option.map_none'] at hp
      exact ih p hp
    | some d =>
      simp only [List.filterMap_cons, h, Option.map_some'] at hp
      rcases List.mem_cons.mp hp with heq | hmem
      · subst heq
        exact h
      · exact ih p hmem

theorem settled_none (outcome : StemOutcome) :
    ∀ l : List StemName, (∀ stem ∈ l, outcome stem = none) →
      l.filterMap (fun stem => (outcome stem).map (fun d => (stem, d))) = [] := by
  intro l
  induction l with
  | nil => intro _; rfl
  | cons a l ih =>
    intro h
    simp only [List.filterMap_cons, h a (by simp), Option.map_none']
    exact ih (fun stem hs => h stem (by simp [hs]))

theorem foldl_max_le (l : List (StemName × ℚ)) :
    ∀ acc : ℚ, acc ≤ l.foldl (fun m p => max m p.2) acc ∧
      ∀ d ∈ l.map Prod.snd, d ≤ l.foldl (fun m p => max m p.2) acc := by
  induction l with
  | nil =>
    intro acc
    exact ⟨le_refl _, by simp⟩
  | cons p l ih =>
    intro acc
    obtain ⟨h1, h2⟩ := ih (max acc p.2)
    rw [List.foldl_cons]
    refine ⟨le_trans (le_max_left _ _) h1, ?_⟩
    intro d hd
    rw [List.map_cons] at hd
    rcases List.mem_cons.mp hd with heq | hmem
    · rw [heq]
      exact le_trans (le_max_right acc p.2) h1
    · exact h2 d hmem

theorem foldl_max_mem (l : List (StemName × ℚ)) :
    ∀ acc : ℚ, l.foldl (fun m p => max m p.2) acc = acc ∨
      l.foldl (fun m p => max m p.2) acc ∈ l.map Prod.snd := by
  induction l with
  | nil =>
    intro acc
    exact Or.inl rfl
  | cons p l ih =>
    intro acc
    rw [List.foldl_cons, List.map_cons]
    rcases le_total acc p.2 with hle | hle
    · rw [max_eq_right hle]
      rcases ih p.2 with h | h
      · right
        rw [h]
        exact List.mem_cons_self _ _
      · right
        exact List.mem_cons_of_mem _ h
    · rw [max_eq_left hle]
      rcases ih acc with h | h
      · left
        exact h
      · right
        exact List.mem_cons_of_mem _ h

/-- C4: the bank decides availability from all six settled stem tasks: at
least one success yields availability with exactly the successful stems and
the maximum of their durations; zero successes clears the stems, arms the
single-stream fallback and surfaces no error (the continuation is total). -/
theorem load_partial_failure_isolation (outcome : StemOutcome) (s : LiveState)
    (hd : ∀ stem d, outcome stem = some d → 0 ≤ d) :
    ((∃ stem ∈ STEM_NAMES, (outcome stem).isSome) →
      (loadComplete outcome (loadBegin s)).stemsAvailable = true ∧
      (loadComplete outcome (loadBegin s)).fallbackArmed = false ∧
      (loadComplete outcome (loadBegin s)).buffers.map Prod.fst =
        STEM_NAMES.filter (fun stem => (outcome stem).isSome) ∧
      (loadComplete outcome (loadBegin s)).duration ∈
        (loadComplete outcome (loadBegin s)).buffers.map Prod.snd ∧
      ∀ d ∈ (loadComplete outcome (loadBegin s)).buffers.map Prod.snd,
        d ≤ (loadComplete outcome (loadBegin s)).duration) ∧
    ((∀ stem ∈ STEM_NAMES, outcome stem = none) →
      (loadComplete outcome (loadBegin s)).stemsAvailable = false ∧
      (loadComplete outcome (loadBegin s)).fallbackArmed = true ∧
      (loadComplete outcome (loadBegin s)).buffers = []) := by
  constructor
  · rintro ⟨stem, hmem, hsome⟩
    have hne : settledResults outcome ≠ [] := by
      intro hemp
      have hmf := settled_map_fst outcome STEM_NAMES
      rw [show STEM_NAMES.filterMap
          (fun stem => (outcome stem).map (fun d => (stem, d))) =
          settledResults outcome from rfl, hemp] at hmf
      have : stem ∈ STEM_NAMES.filter (fun stem => (outcome stem).isSome) :=
        List.mem_filter.mpr ⟨hmem, hsome⟩
      rw [← hmf] at this
      simp at this
    have hlen : ¬(settledResults outcome).length = 0 := by
      simpa [List.length_eq_zero] using hne
    have hnn : ∀ d ∈ (settledResults outcome).map Prod.snd, 0 ≤ d := by
      intro d hdm
      obtain ⟨p, hp, hpd⟩ := List.mem_map.mp hdm
      exact hpd ▸ hd p.1 p.2 (settled_mem outcome STEM_NAMES p hp)
    simp only [loadComplete]
    rw [if_neg hlen]
    refine ⟨rfl, by simp [loadBegin], settled_map_fst outcome STEM_NAMES, ?_, ?_⟩
    · rcases foldl_max_mem (settledResults outcome) 0 with h0 | hm
      · obtain ⟨q, hq⟩ := List.exists_mem_of_ne_nil _ hne
        have hq2 : q.2 ∈ (settledResults outcome).map Prod.snd :=
          List.mem_map.mpr ⟨q, hq, rfl⟩
        have hle : q.2 ≤ (settledResults outcome).foldl (fun m p => max m p.2) 0 :=
          (foldl_max_le _ 0).2 q.2 hq2
        have hge : 0 ≤ q.2 := hnn q.2 hq2
        have : (settledResults outcome).foldl (fun m p => max m p.2) 0 = q.2 := by
          rw [h0] at hle ⊢
          exact le_antisymm hge hle
        rw [this]
        exact hq2
      · exact hm
    · exact (foldl_max_le _ 0).2
  · intro hall
    have hemp : settledResults outcome = [] := settled_none outcome STEM_NAMES hall
    simp only [loadComplete]
    rw [if_pos (by simp [hemp])]
    exact ⟨rfl, rfl, rfl⟩

/-- Witness for C4: with 4 of 6 stems succeeding the bank is available. -/
theorem load_partial_failure_isolation_witness :
    (∀ stem d, wOutcome stem = some d → (0 : ℚ) ≤ d) ∧
    (∃ stem ∈ STEM_NAMES, (wOutcome stem).isSome) ∧
    (loadComplete wOutcome (loadBegin initLive)).stemsAvailable = true :=
  ⟨fun stem d h => by
      cases stem <;> simp [wOutcome] at h <;> rw [← h] <;> norm_num,
    by decide,
    ((load_partial_failure_isolation wOutcome initLive
      (fun stem d h => by
        cases stem <;> simp [wOutcome] at h <;> rw [← h] <;> norm_num)).1
      (by decide)).1⟩

/-- C9 counterexample: two overlapping loads — the superseded first load (only
drums, duration 1) completes after the newer one (only drums, duration 2), and
its stale buffers, duration and availability flag are exactly what remains
visible in live state. -/
theorem stale_load_overwrites_counterexample :
    (loadComplete staleOutcome (loadComplete freshOutcome
      (loadBegin (loadBegin initLive)))).duration = 1 ∧
    (loadComplete staleOutcome (loadComplete freshOutcome
      (loadBegin (loadBegin initLive)))).buffers = [(StemName.drums, 1)] ∧
    (loadComplete staleOutcome (loadComplete freshOutcome
      (loadBegin (loadBegin initLive)))).stemsAvailable = true ∧
    (loadComplete freshOutcome (loadBegin initLive)).duration = 2 := by
  decide

/-- C9 (amended): `load` has no staleness guard: a superseded load's
continuation unconditionally writes its own results into live state, so after
overlapping loads the state shows whichever continuation ran last — stale
results are not invalidated. -/
theorem load_no_cancellation_spec (s : LiveState) (out₁ out₂ : StemOutcome)
    (h : (settledResults out₁).length ≠ 0) :
    (loadComplete out₁ (loadComplete out₂ (loadBegin (loadBegin s)))).buffers =
      settledResults out₁ ∧
    (loadComplete out₁ (loadComplete out₂
      (loadBegin (loadBegin s)))).stemsAvailable = true := by
  simp [loadComplete, h]

/-- Witness for C9 (amended) with the concrete stale outcome. -/
theorem load_no_cancellation_spec_witness :
    (settledResults staleOutcome).length ≠ 0 ∧
    (loadComplete staleOutcome (loadComplete freshOutcome
      (loadBegin (loadBegin initLive)))).buffers = settledResults staleOutcome :=
  ⟨by decide,
    (load_no_cancellation_spec initLive staleOutcome freshOutcome (by decide)).1⟩

end Musicality
